import Mathlib

/-!
Verification of the core game logic of a browser Tic Tac Toe application
(`src/tic_tac_toe_frontend/src/App.js`).

The JavaScript source is shallowly embedded: boards are lists of optional
marks (JS `null` becomes `none`), the rules engine `calculateWinner`, the
search `getBestAIMove` and the session handlers `handleSquareClick`,
`jumpTo`, `handleRestart`, `switchMode` are translated function by
function.  Game-theoretic optimality of the search is expressed through
the predicates `CanGet` and `Hold` (a player can secure at least /
can be held to at most a given score).
-/

namespace TicTacToe

/-- A player symbol: `PLAYER_X = 'X'`, `PLAYER_O = 'O'` in the source. -/
inductive Mark where
  | X : Mark
  | O : Mark
deriving DecidableEq, Repr

/-- The opposite mark. -/
def Mark.other : Mark → Mark
  | .X => .O
  | .O => .X

/-- A board cell: `null` in JS is `none`. -/
abbrev Cell := Option Mark

/-- A board is the JS array of cells; a well-formed board has 9 cells,
row-major. -/
abbrev Board := List Cell

/-- `getEmptyBoard`: `Array(9).fill(null)`. -/
def getEmptyBoard : Board := List.replicate 9 none

/-- JS array read `board[i]`: out-of-range reads give `undefined`, which
the source only ever uses for its falsiness, so it is embedded as `none`. -/
def getCell (b : Board) (i : Nat) : Cell := b.getD i none

/-- JS array write `board[i] = v`: in range it updates in place; past the
end it extends the array, the skipped slots becoming holes (read back as
`undefined`, i.e. `none`). -/
def writeCell (b : Board) (i : Nat) (v : Cell) : Board :=
  if i < b.length then b.set i v
  else b ++ List.replicate (i - b.length) none ++ [v]

/-- The fixed `lines` table of `calculateWinner`: 3 rows, 3 columns,
2 diagonals, in source order. -/
def LINES : List (Nat × Nat × Nat) :=
  [(0, 1, 2), (3, 4, 5), (6, 7, 8),
   (0, 3, 6), (1, 4, 7), (2, 5, 8),
   (0, 4, 8), (2, 4, 6)]

/-- Result of `calculateWinner` when it is not `null`: either
`{winner: mark, line}` or `{winner: 'Draw', line: null}`. -/
inductive CWResult where
  | win (m : Mark) (line : Nat × Nat × Nat) : CWResult
  | draw : CWResult
deriving DecidableEq, Repr

/-- The `for (let line of lines)` loop of `calculateWinner`, followed by
the `board.every(sq => sq != null)` draw check once no line matched. -/
def findWin (b : Board) : List (Nat × Nat × Nat) → Option CWResult
  | [] => if b.all (fun c => c.isSome) then some .draw else none
  | ln :: rest =>
    match getCell b ln.1 with
    | some m =>
      if getCell b ln.2.1 = some m ∧ getCell b ln.2.2 = some m then
        some (.win m ln)
      else findWin b rest
    | none => findWin b rest

/-- `calculateWinner(board)`: first completed line wins, else draw if the
board is full, else `null` (the game is ongoing). -/
def calculateWinner (b : Board) : Option CWResult := findWin b LINES

/-- Spec wording for a completed line: all three cells of the line hold
the same non-empty mark. -/
def specLineDone (b : Board) (ln : Nat × Nat × Nat) : Bool :=
  decide (∃ m : Mark,
    getCell b ln.1 = some m ∧ getCell b ln.2.1 = some m ∧ getCell b ln.2.2 = some m)

/-- The rules-engine contract, written from the spec's words: find the
first of the 8 fixed lines whose three cells hold the same non-empty
mark and report a win for that mark on that line; otherwise report a
draw when every cell is filled, and ongoing (`none`) when some cell is
empty. -/
def evaluateSpec (b : Board) : Option CWResult :=
  match LINES.find? (specLineDone b) with
  | some ln =>
    match getCell b ln.1 with
    | some m => some (.win m ln)
    | none => none
  | none => if b.all (fun c => c.isSome) then some .draw else none

theorem findWin_eq_spec (b : Board) (ls : List (Nat × Nat × Nat)) :
    findWin b ls =
      match ls.find? (specLineDone b) with
      | some ln =>
        match getCell b ln.1 with
        | some m => some (.win m ln)
        | none => none
      | none => if b.all (fun c => c.isSome) then some .draw else none := by
  induction ls with
  | nil => simp [findWin]
  | cons ln rest ih =>
    by_cases hdone : specLineDone b ln = true
    · simp only [List.find?_cons, hdone]
      rcases hm : getCell b ln.1 with _ | m
      · exfalso
        simp only [specLineDone, decide_eq_true_eq] at hdone
        rcases hdone with ⟨m, h1, _, _⟩
        rw [hm] at h1; exact Option.noConfusion h1
      · simp only [specLineDone, decide_eq_true_eq] at hdone
        rcases hdone with ⟨m', h1, h2, h3⟩
        rw [hm] at h1
        injection h1 with h1; subst h1
        simp [findWin, hm, h2, h3]
    · simp only [List.find?_cons, hdone]
      rcases hm : getCell b ln.1 with _ | m
      · simpa [findWin, hm] using ih
      · have hno : ¬(getCell b ln.2.1 = some m ∧ getCell b ln.2.2 = some m) := by
          intro ⟨h2, h3⟩
          apply hdone
          simp only [specLineDone, decide_eq_true_eq]
          exact ⟨m, hm, h2, h3⟩
        simp only [Bool.false_eq_true, if_neg hno, findWin, hm]
        simpa [findWin, hm, hno] using ih

/-- Indices of the empty cells, in ascending order: the cells visited by
`board.forEach` for which `cell == null`. -/
def emptyIdxs (b : Board) : List Nat :=
  (List.range b.length).filter (fun i => (getCell b i).isNone)

theorem mem_emptyIdxs {b : Board} {i : Nat} :
    i ∈ emptyIdxs b ↔ i < b.length ∧ getCell b i = none := by
  simp [emptyIdxs, List.mem_filter, List.mem_range, Option.isNone_iff_eq_none]

theorem getCell_set_ne {b : Board} {i j : Nat} (v : Cell) (h : j ≠ i) :
    getCell (b.set i v) j = getCell b j := by
  simp [getCell, List.getD, List.getElem?_set_ne (Ne.symm h)]

theorem getCell_set_self {b : Board} {i : Nat} (v : Cell) (h : i < b.length) :
    getCell (b.set i v) i = v := by
  simp [getCell, List.getD, List.getElem?_set_self, h]

theorem emptyIdxs_set_some {b : Board} {i : Nat} (m : Mark) :
    emptyIdxs (b.set i (some m)) = (emptyIdxs b).filter (fun j => j ≠ i) := by
  unfold emptyIdxs
  rw [List.length_set, List.filter_filter]
  apply List.filter_congr
  intro j hj
  rw [List.mem_range] at hj
  by_cases hji : j = i
  · subst hji
    simp [getCell_set_self (some m) hj]
  · simp [getCell_set_ne _ hji, hji]

theorem length_filter_lt_of_mem {α : Type} {p : α → Bool} {l : List α} {x : α}
    (hx : x ∈ l) (hpx : p x = false) : (l.filter p).length < l.length := by
  induction l with
  | nil => cases hx
  | cons a t ih =>
    rcases List.mem_cons.mp hx with rfl | ht
    · rw [List.filter_cons, hpx]
      simp only [Bool.false_eq_true, if_false]
      exact Nat.lt_succ_of_le (List.length_filter_le _ _)
    · by_cases hpa : p a = true
      · rw [List.filter_cons, if_pos hpa]
        exact Nat.succ_lt_succ (ih ht)
      · rw [List.filter_cons, if_neg hpa]
        exact Nat.lt_succ_of_lt (ih ht)

theorem length_filter_ne_lt {l : List Nat} {i : Nat} (h : i ∈ l) :
    (l.filter (fun j => j ≠ i)).length < l.length :=
  length_filter_lt_of_mem h (by simp)

theorem emptyIdxs_dec {b : Board} {i : Nat} (m : Mark) (h : i ∈ emptyIdxs b) :
    (emptyIdxs (b.set i (some m))).length < (emptyIdxs b).length := by
  rw [emptyIdxs_set_some]
  exact length_filter_ne_lt h

/-- Result record of `getBestAIMove`: the terminal returns carry only a
`score` (no `idx` field, embedded as `none`); the recursive returns carry
both. -/
structure MoveResult where
  idx : Option Nat
  score : Int
deriving DecidableEq, Repr

/-- One step of the `moves.reduce` accumulator:
`(acc, move) => acc == null || move.score > acc.score ? move : acc`. -/
def pickBetter (acc : Option MoveResult) (m : MoveResult) : Option MoveResult :=
  match acc with
  | none => some m
  | some a => if m.score > a.score then some m else some a

/-- The `moves.reduce(..., null)` selection: keeps the first move whose
score is a strict maximum so far. -/
def reduceBest (moves : List MoveResult) : Option MoveResult :=
  moves.foldl pickBetter none

/-- The three terminal `if` statements at the top of `getBestAIMove`:
`some s` when one of them returns a bare score (+1 when `aiPlayer` won,
-1 when `humanPlayer` won, 0 on a draw), `none` when control falls
through to the search (no winner yet, or — unreachably with two distinct
marks — a winner equal to neither argument). -/
def termScore (board : Board) (aiPlayer humanPlayer : Mark) : Option Int :=
  match calculateWinner board with
  | some (.win m _) =>
    if m = aiPlayer then some (1 : Int)
    else if m = humanPlayer then some (-1) else none
  | some .draw => some (0 : Int)
  | none => none

/-- `getBestAIMove(board, aiPlayer, humanPlayer)`: negamax search.  On a
terminal board it returns the bare leaf score.  Otherwise every empty
cell is tried with `aiPlayer`'s mark, the opposite perspective is
searched recursively and negated, and the reduce keeps the first strict
maximum; with no empty cell left it returns `{idx: null, score: 0}`. -/
def getBestAIMove (board : Board) (aiPlayer humanPlayer : Mark) : MoveResult :=
  match termScore board aiPlayer humanPlayer with
  | some s => ⟨none, s⟩
  | none =>
    let moves := (emptyIdxs board).attach.map
      (fun x =>
        MoveResult.mk (some x.1)
          (-(getBestAIMove (board.set x.1 (some aiPlayer)) humanPlayer aiPlayer).score))
    match reduceBest moves with
    | some best => best
    | none => ⟨none, 0⟩
termination_by (emptyIdxs board).length
decreasing_by
  exact emptyIdxs_dec aiPlayer x.2

theorem Mark.other_other (p : Mark) : p.other.other = p := by
  cases p <;> rfl

theorem Mark.eq_or_eq_other (m p : Mark) : m = p ∨ m = p.other := by
  cases m <;> cases p <;> simp [Mark.other]

theorem Mark.other_ne (p : Mark) : p.other ≠ p := by
  cases p <;> simp [Mark.other]

/-- The leaf value of a terminal `calculateWinner` result from the
searching player's perspective: the three early returns of
`getBestAIMove`. -/
def leafScore (r : CWResult) (p q : Mark) : Int :=
  match r with
  | .win m _ => if m = p then 1 else if m = q then -1 else 0
  | .draw => 0

theorem leafScore_neg (r : CWResult) (p : Mark) :
    leafScore r p.other p = -leafScore r p p.other := by
  have h1 : ¬ (p = p.other) := fun h => Mark.other_ne p h.symm
  have h2 : p.other ≠ p := Mark.other_ne p
  cases r with
  | draw => simp [leafScore]
  | win m ln =>
    rcases Mark.eq_or_eq_other m p with rfl | rfl
    · simp [leafScore, h1, h2]
    · simp [leafScore, h1, h2]

/-- With the genuine two-player roles a terminal board yields a bare
leaf score. -/
theorem termScore_of_winner {b : Board} {r : CWResult} (p : Mark)
    (hw : calculateWinner b = some r) :
    termScore b p p.other = some (leafScore r p p.other) := by
  have h1 : ¬ (p = p.other) := fun h => Mark.other_ne p h.symm
  have h2 : p.other ≠ p := Mark.other_ne p
  unfold termScore
  rw [hw]
  cases r with
  | draw => simp [leafScore]
  | win m ln =>
    rcases Mark.eq_or_eq_other m p with rfl | rfl
    · simp [leafScore]
    · simp [leafScore, h1, h2]

theorem termScore_of_ongoing {b : Board} (p q : Mark)
    (hw : calculateWinner b = none) : termScore b p q = none := by
  unfold termScore
  rw [hw]

theorem getBestAIMove_of_termScore {b : Board} {p q : Mark} {s : Int}
    (ht : termScore b p q = some s) :
    getBestAIMove b p q = ⟨none, s⟩ := by
  unfold getBestAIMove
  rw [ht]

/-- On a terminal board (with the genuine two-player roles) the search
returns the bare leaf score. -/
theorem getBestAIMove_terminal {b : Board} {r : CWResult} (p : Mark)
    (hw : calculateWinner b = some r) :
    getBestAIMove b p p.other = ⟨none, leafScore r p p.other⟩ :=
  getBestAIMove_of_termScore (termScore_of_winner p hw)

/-- The candidate list built by the `board.forEach` loop: one entry per
empty cell, in index order, scoring each by the negated recursive
search. -/
def movesOf (b : Board) (p q : Mark) : List MoveResult :=
  (emptyIdxs b).map
    (fun i => ⟨some i, -(getBestAIMove (b.set i (some p)) q p).score⟩)

theorem getBestAIMove_of_termScore_none {b : Board} (p q : Mark)
    (ht : termScore b p q = none) :
    getBestAIMove b p q =
      match reduceBest (movesOf b p q) with
      | some best => best
      | none => ⟨none, 0⟩ := by
  unfold getBestAIMove
  rw [ht]
  simp only [movesOf]
  rw [List.attach_map_val (emptyIdxs b)
    (fun i => MoveResult.mk (some i)
      (-(getBestAIMove (b.set i (some p)) q p).score))]

theorem getBestAIMove_nonterminal {b : Board} (p q : Mark)
    (hw : calculateWinner b = none) :
    getBestAIMove b p q =
      match reduceBest (movesOf b p q) with
      | some best => best
      | none => ⟨none, 0⟩ :=
  getBestAIMove_of_termScore_none p q (termScore_of_ongoing p q hw)

/-- A board with no empty cell is terminal. -/
theorem calculateWinner_isSome_of_full {b : Board}
    (h : b.all (fun c => c.isSome) = true) :
    ∃ r, calculateWinner b = some r := by
  unfold calculateWinner
  generalize LINES = ls
  induction ls with
  | nil => exact ⟨.draw, by simp [findWin, h]⟩
  | cons ln rest ih =>
    rcases hm : getCell b ln.1 with _ | m
    · simpa [findWin, hm] using ih
    · by_cases hbc : getCell b ln.2.1 = some m ∧ getCell b ln.2.2 = some m
      · exact ⟨.win m ln, by simp [findWin, hm, hbc]⟩
      · simpa [findWin, hm, hbc] using ih

theorem full_of_emptyIdxs_nil {b : Board} (h : emptyIdxs b = []) :
    b.all (fun c => c.isSome) = true := by
  rw [List.all_eq_true]
  intro c hc
  rcases List.mem_iff_getElem.mp hc with ⟨i, hi, rfl⟩
  by_contra hno
  have hcell : getCell b i = none := by
    have h1 : getCell b i = b[i] := by
      simp [getCell, List.getD, List.getElem?_eq_getElem hi]
    rw [h1]
    exact Option.not_isSome_iff_eq_none.mp (by simpa using hno)
  have : i ∈ emptyIdxs b := mem_emptyIdxs.mpr ⟨hi, hcell⟩
  rw [h] at this
  cases this

theorem calculateWinner_isSome_of_no_empty {b : Board}
    (h : emptyIdxs b = []) : ∃ r, calculateWinner b = some r :=
  calculateWinner_isSome_of_full (full_of_emptyIdxs_nil h)

theorem emptyIdxs_ne_nil_of_ongoing {b : Board}
    (hw : calculateWinner b = none) : emptyIdxs b ≠ [] := by
  intro h
  rcases calculateWinner_isSome_of_no_empty h with ⟨r, hr⟩
  rw [hw] at hr
  cases hr

/-- Fuelled twin of `getBestAIMove`, used to evaluate the search inside
the kernel on concrete boards (the well-founded original does not
reduce definitionally). -/
def bestMoveF : Nat → Board → Mark → Mark → MoveResult
  | 0, board, aiPlayer, humanPlayer =>
    match termScore board aiPlayer humanPlayer with
    | some s => ⟨none, s⟩
    | none => ⟨none, 0⟩
  | n + 1, board, aiPlayer, humanPlayer =>
    match termScore board aiPlayer humanPlayer with
    | some s => ⟨none, s⟩
    | none =>
      match reduceBest ((emptyIdxs board).map
        (fun i =>
          MoveResult.mk (some i)
            (-(bestMoveF n (board.set i (some aiPlayer)) humanPlayer aiPlayer).score))) with
      | some best => best
      | none => ⟨none, 0⟩

theorem getBestAIMove_eq_bestMoveF :
    ∀ (fuel : Nat) (b : Board) (p q : Mark),
      (emptyIdxs b).length ≤ fuel → getBestAIMove b p q = bestMoveF fuel b p q := by
  intro fuel
  induction fuel with
  | zero =>
    intro b p q hle
    have hnil : emptyIdxs b = [] := List.eq_nil_of_length_eq_zero (Nat.le_zero.mp hle)
    cases ht : termScore b p q with
    | some s =>
      rw [getBestAIMove_of_termScore ht]
      unfold bestMoveF
      rw [ht]
    | none =>
      rw [getBestAIMove_of_termScore_none p q ht]
      unfold bestMoveF
      rw [ht]
      simp [movesOf, hnil, reduceBest]
  | succ n ih =>
    intro b p q hle
    cases ht : termScore b p q with
    | some s =>
      rw [getBestAIMove_of_termScore ht]
      unfold bestMoveF
      rw [ht]
    | none =>
      rw [getBestAIMove_of_termScore_none p q ht]
      unfold bestMoveF
      rw [ht]
      have hmv : movesOf b p q =
          (emptyIdxs b).map
            (fun i =>
              MoveResult.mk (some i)
                (-(bestMoveF n (b.set i (some p)) q p).score)) := by
        unfold movesOf
        apply List.map_congr_left
        intro i hi
        rw [ih (b.set i (some p)) q p
          (Nat.le_of_lt_succ (Nat.lt_of_lt_of_le (emptyIdxs_dec p hi) hle))]
      rw [hmv]

/-- What the reduce computes, relative to a seed `a` and remaining list
`ms`: the result is the first element (seed included) attaining the
maximal score, earlier elements scoring strictly less and later ones at
most as much. -/
def IsFirstMax (a : MoveResult) (ms : List MoveResult) (r : MoveResult) : Prop :=
  (r = a ∧ ∀ x ∈ ms, x.score ≤ a.score)
  ∨ ∃ ms₁ ms₂, ms = ms₁ ++ r :: ms₂ ∧ a.score < r.score ∧
      (∀ x ∈ ms₁, x.score < r.score) ∧ (∀ x ∈ ms₂, x.score ≤ r.score)

theorem foldl_pickBetter_firstMax :
    ∀ (ms : List MoveResult) (a : MoveResult),
      ∃ r, ms.foldl pickBetter (some a) = some r ∧ IsFirstMax a ms r := by
  intro ms
  induction ms with
  | nil =>
    intro a
    exact ⟨a, rfl, Or.inl ⟨rfl, by simp⟩⟩
  | cons m rest ih =>
    intro a
    by_cases h : m.score > a.score
    · rcases ih m with ⟨r, hfold, hfm⟩
      refine ⟨r, ?_, ?_⟩
      · simp only [List.foldl_cons, pickBetter, if_pos h]
        exact hfold
      · rcases hfm with ⟨rfl, hall⟩ | ⟨ms₁, ms₂, heq, hlt, h1, h2⟩
        · exact Or.inr ⟨[], rest, by simp, h, by simp, hall⟩
        · refine Or.inr ⟨m :: ms₁, ms₂, by rw [heq]; rfl,
            lt_trans h hlt, ?_, h2⟩
          intro x hx
          rcases List.mem_cons.mp hx with rfl | hx'
          · exact hlt
          · exact h1 x hx'
    · rcases ih a with ⟨r, hfold, hfm⟩
      refine ⟨r, ?_, ?_⟩
      · simp only [List.foldl_cons, pickBetter, if_neg h]
        exact hfold
      · rcases hfm with ⟨rfl, hall⟩ | ⟨ms₁, ms₂, heq, hlt, h1, h2⟩
        · refine Or.inl ⟨rfl, ?_⟩
          intro x hx
          rcases List.mem_cons.mp hx with rfl | hx'
          · exact le_of_not_lt h
          · exact hall x hx'
        · refine Or.inr ⟨m :: ms₁, ms₂, by rw [heq]; rfl, hlt, ?_, h2⟩
          intro x hx
          rcases List.mem_cons.mp hx with rfl | hx'
          · exact lt_of_le_of_lt (le_of_not_lt h) hlt
          · exact h1 x hx'

theorem reduceBest_nil : reduceBest [] = none := rfl

theorem reduceBest_cons_spec (m : MoveResult) (rest : List MoveResult) :
    ∃ r, reduceBest (m :: rest) = some r ∧ IsFirstMax m rest r := by
  simpa [reduceBest, pickBetter] using foldl_pickBetter_firstMax rest m

theorem reduceBest_eq_none_iff {ms : List MoveResult} :
    reduceBest ms = none ↔ ms = [] := by
  cases ms with
  | nil => simp [reduceBest_nil]
  | cons m rest =>
    rcases reduceBest_cons_spec m rest with ⟨r, hr, _⟩
    simp [hr]

theorem reduceBest_mem {ms : List MoveResult} {r : MoveResult}
    (h : reduceBest ms = some r) : r ∈ ms := by
  cases ms with
  | nil => cases h
  | cons m rest =>
    rcases reduceBest_cons_spec m rest with ⟨r', hr', hfm⟩
    rw [hr'] at h
    injection h with h
    subst h
    rcases hfm with ⟨rfl, _⟩ | ⟨ms₁, ms₂, heq, _, _, _⟩
    · exact List.mem_cons_self _ _
    · rw [heq]
      exact List.mem_cons_of_mem _ (List.mem_append_right _ (List.mem_cons_self _ _))

theorem reduceBest_ub {ms : List MoveResult} {r : MoveResult}
    (h : reduceBest ms = some r) : ∀ x ∈ ms, x.score ≤ r.score := by
  cases ms with
  | nil => cases h
  | cons m rest =>
    rcases reduceBest_cons_spec m rest with ⟨r', hr', hfm⟩
    rw [hr'] at h
    injection h with h
    subst h
    intro x hx
    rcases hfm with ⟨rfl, hall⟩ | ⟨ms₁, ms₂, heq, hlt, h1, h2⟩
    · rcases List.mem_cons.mp hx with rfl | hx'
      · exact le_refl _
      · exact hall x hx'
    · rcases List.mem_cons.mp hx with rfl | hx'
      · exact le_of_lt hlt
      · rw [heq] at hx'
        rcases List.mem_append.mp hx' with hx1 | hx2
        · exact le_of_lt (h1 x hx1)
        · rcases List.mem_cons.mp hx2 with rfl | hx3
          · exact le_refl _
          · exact h2 x hx3

/-- The reduce keeps the first maximum: everything strictly before the
returned move scores strictly less. -/
theorem reduceBest_first {ms : List MoveResult} {r : MoveResult}
    (h : reduceBest ms = some r) :
    ∃ ms₁ ms₂, ms = ms₁ ++ r :: ms₂ ∧ ∀ x ∈ ms₁, x.score < r.score := by
  cases ms with
  | nil => cases h
  | cons m rest =>
    rcases reduceBest_cons_spec m rest with ⟨r', hr', hfm⟩
    rw [hr'] at h
    injection h with h
    subst h
    rcases hfm with ⟨rfl, _⟩ | ⟨ms₁, ms₂, heq, hlt, h1, _⟩
    · exact ⟨[], rest, rfl, by simp⟩
    · refine ⟨m :: ms₁, ms₂, by rw [heq]; rfl, ?_⟩
      intro x hx
      rcases List.mem_cons.mp hx with rfl | hx'
      · exact hlt
      · exact h1 x hx'

theorem mem_movesOf {b : Board} {p q : Mark} {x : MoveResult} :
    x ∈ movesOf b p q ↔
      ∃ i ∈ emptyIdxs b,
        x = ⟨some i, -(getBestAIMove (b.set i (some p)) q p).score⟩ := by
  simp only [movesOf, List.mem_map]
  constructor
  · rintro ⟨i, hi, rfl⟩; exact ⟨i, hi, rfl⟩
  · rintro ⟨i, hi, rfl⟩; exact ⟨i, hi, rfl⟩

theorem termScore_range {b : Board} {p q : Mark} {s : Int}
    (h : termScore b p q = some s) : -1 ≤ s ∧ s ≤ 1 := by
  unfold termScore at h
  rcases hw : calculateWinner b with _ | r
  · rw [hw] at h; cases h
  · rw [hw] at h
    cases r with
    | draw =>
      simp only at h
      injection h with h
      omega
    | win m ln =>
      simp only at h
      by_cases hp : m = p
      · rw [if_pos hp] at h
        injection h with h
        omega
      · rw [if_neg hp] at h
        by_cases hq : m = q
        · rw [if_pos hq] at h
          injection h with h
          omega
        · rw [if_neg hq] at h
          cases h

/-- The negamax score always lies in `[-1, 1]`. -/
theorem score_bounds :
    ∀ (n : Nat) (b : Board) (p q : Mark), (emptyIdxs b).length ≤ n →
      -1 ≤ (getBestAIMove b p q).score ∧ (getBestAIMove b p q).score ≤ 1 := by
  intro n
  induction n with
  | zero =>
    intro b p q hle
    have hnil : emptyIdxs b = [] := List.eq_nil_of_length_eq_zero (Nat.le_zero.mp hle)
    cases ht : termScore b p q with
    | some s =>
      rw [getBestAIMove_of_termScore ht]
      exact termScore_range ht
    | none =>
      rw [getBestAIMove_of_termScore_none p q ht]
      simp [movesOf, hnil, reduceBest_nil]
  | succ n ih =>
    intro b p q hle
    cases ht : termScore b p q with
    | some s =>
      rw [getBestAIMove_of_termScore ht]
      exact termScore_range ht
    | none =>
      rw [getBestAIMove_of_termScore_none p q ht]
      cases hr : reduceBest (movesOf b p q) with
      | none => simp
      | some best =>
        simp only []
        have hmem := reduceBest_mem hr
        rcases mem_movesOf.mp hmem with ⟨i, hi, rfl⟩
        have hchild := ih (b.set i (some p)) q p
          (Nat.le_of_lt_succ (Nat.lt_of_lt_of_le (emptyIdxs_dec p hi) hle))
        simp only []
        omega

mutual

/-- Game-theoretic achievability: with `p` to move (opponent `q`), `p`
can guarantee a final leaf score of at least `v` from `p`'s own
perspective, whatever `q` replies. -/
def CanGet (b : Board) (p q : Mark) (v : Int) : Prop :=
  match calculateWinner b with
  | some r => leafScore r p q ≥ v
  | none => ∃ i, ∃ _ : i ∈ emptyIdxs b, Hold (b.set i (some p)) q p (-v)
termination_by (emptyIdxs b).length
decreasing_by exact emptyIdxs_dec p (by assumption)

/-- Game-theoretic containment: with `p` to move (opponent `q`), `p`
cannot get a final leaf score above `v` — every `p` move leaves a
position from which `q` secures at least `-v`. -/
def Hold (b : Board) (p q : Mark) (v : Int) : Prop :=
  match calculateWinner b with
  | some r => leafScore r p q ≤ v
  | none => ∀ j, j ∈ emptyIdxs b → CanGet (b.set j (some p)) q p (-v)
termination_by (emptyIdxs b).length
decreasing_by exact emptyIdxs_dec p (by assumption)

end

theorem CanGet_terminal {b : Board} {r : CWResult} (p q : Mark) (v : Int)
    (hw : calculateWinner b = some r) :
    CanGet b p q v ↔ leafScore r p q ≥ v := by
  rw [CanGet]
  rw [hw]

theorem CanGet_ongoing {b : Board} (p q : Mark) (v : Int)
    (hw : calculateWinner b = none) :
    CanGet b p q v ↔
      ∃ i, ∃ _ : i ∈ emptyIdxs b, Hold (b.set i (some p)) q p (-v) := by
  rw [CanGet]
  rw [hw]

theorem Hold_terminal {b : Board} {r : CWResult} (p q : Mark) (v : Int)
    (hw : calculateWinner b = some r) :
    Hold b p q v ↔ leafScore r p q ≤ v := by
  rw [Hold]
  rw [hw]

theorem Hold_ongoing {b : Board} (p q : Mark) (v : Int)
    (hw : calculateWinner b = none) :
    Hold b p q v ↔
      ∀ j, j ∈ emptyIdxs b → CanGet (b.set j (some p)) q p (-v) := by
  rw [Hold]
  rw [hw]

theorem mono_pair : ∀ n : Nat,
    (∀ b p q (v v' : Int), (emptyIdxs b).length ≤ n → v' ≤ v →
      CanGet b p q v → CanGet b p q v') ∧
    (∀ b p q (u u' : Int), (emptyIdxs b).length ≤ n → u ≤ u' →
      Hold b p q u → Hold b p q u') := by
  intro n
  induction n with
  | zero =>
    constructor
    · intro b p q v v' hle hv h
      have hnil : emptyIdxs b = [] :=
        List.eq_nil_of_length_eq_zero (Nat.le_zero.mp hle)
      rcases calculateWinner_isSome_of_no_empty hnil with ⟨r, hw⟩
      exact (CanGet_terminal p q v' hw).mpr
        (le_trans hv ((CanGet_terminal p q v hw).mp h))
    · intro b p q u u' hle hu h
      have hnil : emptyIdxs b = [] :=
        List.eq_nil_of_length_eq_zero (Nat.le_zero.mp hle)
      rcases calculateWinner_isSome_of_no_empty hnil with ⟨r, hw⟩
      exact (Hold_terminal p q u' hw).mpr
        (le_trans ((Hold_terminal p q u hw).mp h) hu)
  | succ n ih =>
    constructor
    · intro b p q v v' hle hv h
      cases hw : calculateWinner b with
      | some r =>
        exact (CanGet_terminal p q v' hw).mpr
          (le_trans hv ((CanGet_terminal p q v hw).mp h))
      | none =>
        rcases (CanGet_ongoing p q v hw).mp h with ⟨i, hi, hH⟩
        refine (CanGet_ongoing p q v' hw).mpr ⟨i, hi, ?_⟩
        exact ih.2 _ q p (-v) (-v')
          (Nat.le_of_lt_succ (Nat.lt_of_lt_of_le (emptyIdxs_dec p hi) hle))
          (neg_le_neg hv) hH
    · intro b p q u u' hle hu h
      cases hw : calculateWinner b with
      | some r =>
        exact (Hold_terminal p q u' hw).mpr
          (le_trans ((Hold_terminal p q u hw).mp h) hu)
      | none =>
        refine (Hold_ongoing p q u' hw).mpr ?_
        intro j hj
        exact ih.1 _ q p (-u) (-u')
          (Nat.le_of_lt_succ (Nat.lt_of_lt_of_le (emptyIdxs_dec p hj) hle))
          (neg_le_neg hu) ((Hold_ongoing p q u hw).mp h j hj)

theorem CanGet_mono {b : Board} {p q : Mark} {v v' : Int}
    (hv : v' ≤ v) (h : CanGet b p q v) : CanGet b p q v' :=
  (mono_pair (emptyIdxs b).length).1 b p q v v' (le_refl _) hv h

theorem Hold_mono {b : Board} {p q : Mark} {u u' : Int}
    (hu : u ≤ u') (h : Hold b p q u) : Hold b p q u' :=
  (mono_pair (emptyIdxs b).length).2 b p q u u' (le_refl _) hu h

/-- Weak duality: an achievable lower bound never exceeds a held upper
bound. -/
theorem CanGet_le_Hold :
    ∀ (n : Nat) (b : Board) (p q : Mark) (v u : Int),
      (emptyIdxs b).length ≤ n → CanGet b p q v → Hold b p q u → v ≤ u := by
  intro n
  induction n with
  | zero =>
    intro b p q v u hle hc hh
    have hnil : emptyIdxs b = [] :=
      List.eq_nil_of_length_eq_zero (Nat.le_zero.mp hle)
    rcases calculateWinner_isSome_of_no_empty hnil with ⟨r, hw⟩
    exact le_trans ((CanGet_terminal p q v hw).mp hc)
      ((Hold_terminal p q u hw).mp hh)
  | succ n ih =>
    intro b p q v u hle hc hh
    cases hw : calculateWinner b with
    | some r =>
      exact le_trans ((CanGet_terminal p q v hw).mp hc)
        ((Hold_terminal p q u hw).mp hh)
    | none =>
      rcases (CanGet_ongoing p q v hw).mp hc with ⟨i, hi, hH⟩
      have hC := (Hold_ongoing p q u hw).mp hh i hi
      have := ih _ q p (-u) (-v)
        (Nat.le_of_lt_succ (Nat.lt_of_lt_of_le (emptyIdxs_dec p hi) hle))
        hC hH
      omega

/-- The score computed by `getBestAIMove` is simultaneously achievable by
the searching player and unbeatable — the exact game-theoretic value. -/
theorem score_CanGet_Hold :
    ∀ (n : Nat) (b : Board) (p : Mark), (emptyIdxs b).length ≤ n →
      CanGet b p p.other ((getBestAIMove b p p.other).score) ∧
      Hold b p p.other ((getBestAIMove b p p.other).score) := by
  intro n
  induction n with
  | zero =>
    intro b p hle
    have hnil : emptyIdxs b = [] :=
      List.eq_nil_of_length_eq_zero (Nat.le_zero.mp hle)
    rcases calculateWinner_isSome_of_no_empty hnil with ⟨r, hw⟩
    rw [getBestAIMove_terminal p hw]
    exact ⟨(CanGet_terminal p p.other _ hw).mpr (le_refl _),
      (Hold_terminal p p.other _ hw).mpr (le_refl _)⟩
  | succ n ih =>
    intro b p hle
    cases hw : calculateWinner b with
    | some r =>
      rw [getBestAIMove_terminal p hw]
      exact ⟨(CanGet_terminal p p.other _ hw).mpr (le_refl _),
        (Hold_terminal p p.other _ hw).mpr (le_refl _)⟩
    | none =>
      have hne : movesOf b p p.other ≠ [] := by
        intro hmv
        exact emptyIdxs_ne_nil_of_ongoing hw (by simpa [movesOf] using hmv)
      cases hr : reduceBest (movesOf b p p.other) with
      | none => exact absurd (reduceBest_eq_none_iff.mp hr) hne
      | some best =>
        have hval : getBestAIMove b p p.other = best := by
          rw [getBestAIMove_nonterminal p p.other hw, hr]
        rw [hval]
        rcases mem_movesOf.mp (reduceBest_mem hr) with ⟨i, hi, hbest⟩
        have hchildlen : (emptyIdxs (b.set i (some p))).length ≤ n :=
          Nat.le_of_lt_succ (Nat.lt_of_lt_of_le (emptyIdxs_dec p hi) hle)
        have hih := ih (b.set i (some p)) p.other hchildlen
        rw [Mark.other_other] at hih
        constructor
        · refine (CanGet_ongoing p p.other best.score hw).mpr ⟨i, hi, ?_⟩
          have hsc : -best.score =
              (getBestAIMove (b.set i (some p)) p.other p).score := by
            rw [hbest]; simp
          rw [hsc]
          exact hih.2
        · refine (Hold_ongoing p p.other best.score hw).mpr ?_
          intro j hj
          have hjlen : (emptyIdxs (b.set j (some p))).length ≤ n :=
            Nat.le_of_lt_succ (Nat.lt_of_lt_of_le (emptyIdxs_dec p hj) hle)
          have hjih := ih (b.set j (some p)) p.other hjlen
          rw [Mark.other_other] at hjih
          have hjmem : (⟨some j,
              -(getBestAIMove (b.set j (some p)) p.other p).score⟩ : MoveResult) ∈
              movesOf b p p.other :=
            mem_movesOf.mpr ⟨j, hj, rfl⟩
          have hub := reduceBest_ub hr _ hjmem
          simp only at hub
          exact (mono_pair n).1 _ p.other p _ _ hjlen (by omega) hjih.1

/-- The negamax score is a lower bound `p` can force. -/
theorem getBestAIMove_CanGet (b : Board) (p : Mark) :
    CanGet b p p.other ((getBestAIMove b p p.other).score) :=
  (score_CanGet_Hold (emptyIdxs b).length b p (le_refl _)).1

/-- The negamax score is an upper bound the opponent can enforce. -/
theorem getBestAIMove_Hold (b : Board) (p : Mark) :
    Hold b p p.other ((getBestAIMove b p p.other).score) :=
  (score_CanGet_Hold (emptyIdxs b).length b p (le_refl _)).2

/-- Optimality: any score `p` can force is at most the computed one. -/
theorem CanGet_le_score (b : Board) (p : Mark) (v : Int)
    (h : CanGet b p p.other v) : v ≤ (getBestAIMove b p p.other).score :=
  CanGet_le_Hold (emptyIdxs b).length b p p.other v _ (le_refl _) h
    (getBestAIMove_Hold b p)

/-- Certificate infrastructure: an explicit drawing strategy, used only
to establish the value of the empty board by finite checking.  For a
line, the cell that would complete it for `m`, if the other two cells
already hold `m`. -/
def lineWinCell (b : Board) (m : Mark) (ln : Nat × Nat × Nat) : Option Nat :=
  match ln with
  | (x, y, z) =>
    if getCell b x = some m ∧ getCell b y = some m ∧ getCell b z = none then some z
    else if getCell b x = some m ∧ getCell b z = some m ∧ getCell b y = none then some y
    else if getCell b y = some m ∧ getCell b z = some m ∧ getCell b x = none then some x
    else none

/-- Cells that immediately complete a line for `m`. -/
def winningMoves (b : Board) (m : Mark) : List Nat :=
  LINES.filterMap (lineWinCell b m)

/-- Cells that give `m` at least two immediate threats at once. -/
def forkMoves (b : Board) (m : Mark) : List Nat :=
  (emptyIdxs b).filter (fun i => 2 ≤ (winningMoves (b.set i (some m)) m).length)

def firstFree (b : Board) (l : List Nat) : Option Nat :=
  (l.filter (fun i => i ∈ emptyIdxs b)).head?

/-- A rule-based perfect-play strategy (win, block, fork, neutralise the
opponent's fork by forcing, centre, corners, edges).  Its quality is
irrelevant to soundness: the checkers below validate every move. -/
def strat (b : Board) (p q : Mark) : Option Nat :=
  match winningMoves b p with
  | i :: _ => some i
  | [] =>
    match winningMoves b q with
    | i :: _ => some i
    | [] =>
      match forkMoves b p with
      | i :: _ => some i
      | [] =>
        match forkMoves b q with
        | _ :: _ =>
          let forcing := (emptyIdxs b).filter (fun i =>
            let b2 := b.set i (some p)
            decide (winningMoves b2 p ≠ []) &&
            (winningMoves b2 p).all (fun w =>
              (winningMoves (b2.set w (some q)) q).length < 2))
          match forcing with
          | i :: _ => some i
          | [] => (forkMoves b q).head?
        | [] => firstFree b [4, 0, 2, 6, 8, 1, 3, 5, 7]

mutual

/-- Fuelled checker: the mover follows `strat` and must reach leaf score
at least `v` against every opponent reply explored by `holdS`. -/
def canGetS : Nat → Board → Mark → Mark → Int → Bool
  | 0, _, _, _, _ => false
  | n + 1, b, p, q, v =>
    match calculateWinner b with
    | some r => decide (leafScore r p q ≥ v)
    | none =>
      match strat b p q with
      | some i =>
        decide (i ∈ emptyIdxs b) && holdS n (b.set i (some p)) q p (-v)
      | none => false

/-- Fuelled checker: every move of the mover leaves a position in which
the `strat`-following opponent still secures `-v`, so the mover is held
to at most `v`. -/
def holdS : Nat → Board → Mark → Mark → Int → Bool
  | 0, _, _, _, _ => false
  | n + 1, b, p, q, v =>
    match calculateWinner b with
    | some r => decide (leafScore r p q ≤ v)
    | none => (emptyIdxs b).all (fun j => canGetS n (b.set j (some p)) q p (-v))

end

theorem certS_sound : ∀ n : Nat,
    (∀ b p q v, canGetS n b p q v = true → CanGet b p q v) ∧
    (∀ b p q v, holdS n b p q v = true → Hold b p q v) := by
  intro n
  induction n with
  | zero =>
    constructor
    · intro b p q v h
      rw [canGetS] at h
      cases h
    · intro b p q v h
      rw [holdS] at h
      cases h
  | succ n ih =>
    constructor
    · intro b p q v h
      rw [canGetS] at h
      cases hw : calculateWinner b with
      | some r =>
        rw [hw] at h
        exact (CanGet_terminal p q v hw).mpr (of_decide_eq_true h)
      | none =>
        rw [hw] at h
        cases hs : strat b p q with
        | none => rw [hs] at h; cases h
        | some i =>
          rw [hs] at h
          rcases Bool.and_eq_true_iff.mp h with ⟨hmem, hrec⟩
          exact (CanGet_ongoing p q v hw).mpr
            ⟨i, of_decide_eq_true hmem, ih.2 _ _ _ _ hrec⟩
    · intro b p q v h
      rw [holdS] at h
      cases hw : calculateWinner b with
      | some r =>
        rw [hw] at h
        exact (Hold_terminal p q v hw).mpr (of_decide_eq_true h)
      | none =>
        rw [hw] at h
        refine (Hold_ongoing p q v hw).mpr ?_
        intro j hj
        exact ih.1 _ _ _ _ (List.all_eq_true.mp h j hj)

set_option maxHeartbeats 4000000 in
theorem canGetS_empty : canGetS 10 getEmptyBoard .X .O 0 = true := by decide

set_option maxHeartbeats 4000000 in
theorem holdS_empty : holdS 10 getEmptyBoard .X .O 0 = true := by decide

/-- The empty board is a draw under optimal play: the search's score for
`X` on the empty board is `0`. -/
theorem score_empty_eq_zero :
    (getBestAIMove getEmptyBoard .X .O).score = 0 := by
  have hC : CanGet getEmptyBoard .X .O 0 :=
    (certS_sound 10).1 _ _ _ _ canGetS_empty
  have hH : Hold getEmptyBoard .X .O 0 :=
    (certS_sound 10).2 _ _ _ _ holdS_empty
  have h1 : (0 : Int) ≤ (getBestAIMove getEmptyBoard .X .O).score :=
    CanGet_le_score getEmptyBoard .X 0 hC
  have h2 : (getBestAIMove getEmptyBoard .X .O).score ≤ 0 :=
    CanGet_le_Hold (emptyIdxs getEmptyBoard).length getEmptyBoard .X .O _ 0
      (le_refl _) (getBestAIMove_CanGet getEmptyBoard .X) hH
  omega

/-- On an ongoing board the search returns an actual empty cell whose
negated child score is the returned score. -/
theorem getBestAIMove_idx_spec {b : Board} (p q : Mark)
    (hw : calculateWinner b = none) :
    ∃ i, (getBestAIMove b p q).idx = some i ∧ i ∈ emptyIdxs b ∧
      (getBestAIMove b p q).score =
        -(getBestAIMove (b.set i (some p)) q p).score := by
  have hne : movesOf b p q ≠ [] := by
    intro hmv
    exact emptyIdxs_ne_nil_of_ongoing hw (by simpa [movesOf] using hmv)
  cases hr : reduceBest (movesOf b p q) with
  | none => exact absurd (reduceBest_eq_none_iff.mp hr) hne
  | some best =>
    have hval : getBestAIMove b p q = best := by
      rw [getBestAIMove_nonterminal p q hw, hr]
    rcases mem_movesOf.mp (reduceBest_mem hr) with ⟨i, hi, hbest⟩
    refine ⟨i, ?_, hi, ?_⟩
    · rw [hval, hbest]
    · rw [hval, hbest]

theorem leafScore_zero_draw {r : CWResult} {p : Mark}
    (h : leafScore r p p.other = 0) : r = .draw := by
  cases r with
  | draw => rfl
  | win m ln =>
    exfalso
    rcases Mark.eq_or_eq_other m p with rfl | rfl
    · simp [leafScore] at h
    · have h1 : ¬ (p.other = p) := Mark.other_ne p
      simp [leafScore, h1] at h

/-- Alternating self-play: from `b` with `p` to move, repeatedly apply
the move returned by `getBestAIMove` for the player to move. -/
def selfPlay : Nat → Board → Mark → Board
  | 0, b, _ => b
  | n + 1, b, p =>
    match calculateWinner b with
    | some _ => b
    | none =>
      match (getBestAIMove b p p.other).idx with
      | none => b
      | some i => selfPlay n (b.set i (some p)) p.other

theorem selfPlay_draw : ∀ (n : Nat) (b : Board) (p : Mark),
    (emptyIdxs b).length ≤ n →
    (getBestAIMove b p p.other).score = 0 →
    calculateWinner (selfPlay n b p) = some .draw := by
  intro n
  induction n with
  | zero =>
    intro b p hle hs
    have hnil : emptyIdxs b = [] :=
      List.eq_nil_of_length_eq_zero (Nat.le_zero.mp hle)
    rcases calculateWinner_isSome_of_no_empty hnil with ⟨r, hw⟩
    have := getBestAIMove_terminal p hw
    rw [this] at hs
    simp only at hs
    rw [selfPlay, hw, leafScore_zero_draw hs]
  | succ n ih =>
    intro b p hle hs
    cases hw : calculateWinner b with
    | some r =>
      have := getBestAIMove_terminal p hw
      rw [this] at hs
      simp only at hs
      rw [selfPlay, hw]
      show calculateWinner b = some CWResult.draw
      rw [hw, leafScore_zero_draw hs]
    | none =>
      rcases getBestAIMove_idx_spec p p.other hw with ⟨i, hidx, hi, hscore⟩
      have hchild : (getBestAIMove (b.set i (some p)) p.other p).score = 0 := by
        rw [hscore] at hs
        omega
      rw [selfPlay, hw, hidx]
      have hrec := ih (b.set i (some p)) p.other
        (Nat.le_of_lt_succ (Nat.lt_of_lt_of_le (emptyIdxs_dec p hi) hle))
      rw [Mark.other_other] at hrec
      exact hrec (by rw [hchild])

/-- C2.  `getBestAIMove` plays perfectly: on every 9-cell board the score
it returns is exactly the game-theoretic minimax value — a score the
searching player can force (`CanGet`), and no forcible score exceeds it —
and self-play from the empty board, always playing the returned move for
the player to move, ends in a draw. -/
theorem C2_search_optimal_selfPlay_draw :
    (∀ (b : Board) (p : Mark), b.length = 9 →
      CanGet b p p.other ((getBestAIMove b p p.other).score) ∧
      (∀ v : Int, CanGet b p p.other v →
        v ≤ (getBestAIMove b p p.other).score)) ∧
    calculateWinner (selfPlay 9 getEmptyBoard .X) = some .draw := by
  constructor
  · intro b p _
    exact ⟨getBestAIMove_CanGet b p, fun v hv => CanGet_le_score b p v hv⟩
  · exact selfPlay_draw 9 getEmptyBoard .X (by decide) score_empty_eq_zero

theorem C2_search_optimal_selfPlay_draw_witness :
    getEmptyBoard.length = 9 ∧
    CanGet getEmptyBoard Mark.X Mark.O
      ((getBestAIMove getEmptyBoard Mark.X Mark.O).score) :=
  ⟨by decide,
    (C2_search_optimal_selfPlay_draw.1 getEmptyBoard Mark.X (by decide)).1⟩

/-- C1.  `calculateWinner` returns a win for the first of the 8 fixed
lines (rows, then columns, then diagonals) whose three cells hold the
same non-empty mark; with no completed line it returns a draw when every
cell is filled and `null` (ongoing) otherwise — i.e. it agrees with the
specification evaluator on every 9-cell board. -/
theorem C1_calculateWinner_matches_spec (b : Board) (_h : b.length = 9) :
    calculateWinner b = evaluateSpec b := by
  rw [calculateWinner, evaluateSpec, findWin_eq_spec]

theorem C1_calculateWinner_matches_spec_witness :
    ([some Mark.X, some Mark.O, some Mark.X, none, some Mark.O, none,
      none, none, some Mark.X] : Board).length = 9 ∧
    calculateWinner
      [some Mark.X, some Mark.O, some Mark.X, none, some Mark.O, none,
       none, none, some Mark.X] =
    evaluateSpec
      [some Mark.X, some Mark.O, some Mark.X, none, some Mark.O, none,
       none, none, some Mark.X] :=
  ⟨by decide,
    C1_calculateWinner_matches_spec
      [some Mark.X, some Mark.O, some Mark.X, none, some Mark.O, none,
       none, none, some Mark.X] (by decide)⟩

/-- C5.  On a terminal board the search returns no move index and, with
the two genuine roles, score +1 when the searching player's mark won,
-1 when the opponent's mark won, and 0 for a draw. -/
theorem C5_terminal_bare_score (b : Board) (p : Mark) (r : CWResult)
    (hw : calculateWinner b = some r) :
    (getBestAIMove b p p.other).idx = none ∧
    (getBestAIMove b p p.other).score =
      (match r with
       | CWResult.win m _ => if m = p then 1 else -1
       | CWResult.draw => 0) := by
  rw [getBestAIMove_terminal p hw]
  refine ⟨rfl, ?_⟩
  cases r with
  | draw => rfl
  | win m ln =>
    by_cases hp : m = p
    · simp [leafScore, hp]
    · have hq : m = p.other := (Mark.eq_or_eq_other m p).resolve_left hp
      simp [leafScore, hp, hq]

/-- Board with a completed top row for X. -/
def wonBoard : Board :=
  [some Mark.X, some Mark.X, some Mark.X,
   some Mark.O, some Mark.O, none, none, none, none]

theorem C5_terminal_bare_score_witness :
    (getBestAIMove wonBoard Mark.X Mark.O).idx = none ∧
    (getBestAIMove wonBoard Mark.X Mark.O).score = 1 := by
  have h := C5_terminal_bare_score wonBoard Mark.X
    (CWResult.win Mark.X (0, 1, 2)) (by decide)
  exact ⟨h.1, h.2⟩

/-- X to move; X at 2, 4, 5 and O at 1, 7.  Immediate wins for X exist at
cells 3, 6 and 8, but cell 0 is a fork also scoring +1 and is generated
first, so the reduce keeps it. -/
def cexBoard : Board :=
  [none, some Mark.O, some Mark.X, none, some Mark.X, some Mark.X,
   none, some Mark.O, none]

/-- C3 as stated is false: on `cexBoard` a single-ply win for X is
available (cell 3 completes the middle row), yet `getBestAIMove` returns
cell 0, which completes no line. -/
theorem C3_counterexample :
    (3 ∈ emptyIdxs cexBoard ∧
      calculateWinner (cexBoard.set 3 (some Mark.X)) =
        some (CWResult.win Mark.X (3, 4, 5))) ∧
    (getBestAIMove cexBoard Mark.X Mark.O).idx = some 0 ∧
    calculateWinner (cexBoard.set 0 (some Mark.X)) = none := by
  refine ⟨⟨by decide, by decide⟩, ?_, by decide⟩
  rw [getBestAIMove_eq_bestMoveF 4 cexBoard Mark.X Mark.O (by decide)]
  decide

/-- C3 amended.  When the board is still ongoing and some empty cell
immediately wins for the searching player, the search returns a move of
score +1 — a cell from which the searcher forces the win — but that cell
need not itself be an immediately winning one. -/
theorem C3_amended_winning_score (b : Board) (p : Mark)
    (_h9 : b.length = 9) (hw : calculateWinner b = none)
    (hwin : ∃ i ∈ emptyIdxs b, ∃ ln,
      calculateWinner (b.set i (some p)) = some (CWResult.win p ln)) :
    (getBestAIMove b p p.other).score = 1 ∧
    ∃ j, (getBestAIMove b p p.other).idx = some j ∧ j ∈ emptyIdxs b ∧
      (getBestAIMove (b.set j (some p)) p.other p).score = -1 := by
  rcases hwin with ⟨i, hi, ln, hwini⟩
  have hchild : getBestAIMove (b.set i (some p)) p.other p = ⟨none, -1⟩ := by
    have hterm := getBestAIMove_terminal (b := b.set i (some p)) p.other hwini
    rw [Mark.other_other] at hterm
    rw [hterm]
    have h1 : ¬ (p = p.other) := fun h => Mark.other_ne p h.symm
    simp [leafScore, Mark.other_other, h1]
  have hxi : (⟨some i, (1 : Int)⟩ : MoveResult) ∈ movesOf b p p.other := by
    refine mem_movesOf.mpr ⟨i, hi, ?_⟩
    rw [hchild]
    norm_num
  have hne : movesOf b p p.other ≠ [] := fun hmv =>
    emptyIdxs_ne_nil_of_ongoing hw (by simpa [movesOf] using hmv)
  cases hr : reduceBest (movesOf b p p.other) with
  | none => exact absurd (reduceBest_eq_none_iff.mp hr) hne
  | some best =>
    have hval : getBestAIMove b p p.other = best := by
      rw [getBestAIMove_nonterminal _ _ hw, hr]
    have hub := reduceBest_ub hr _ hxi
    have hbd := score_bounds (emptyIdxs b).length b p p.other (le_refl _)
    rw [hval] at hbd
    have hscore : best.score = 1 := by
      simp only at hub
      omega
    rcases mem_movesOf.mp (reduceBest_mem hr) with ⟨j, hj, hbest⟩
    refine ⟨by rw [hval, hscore], j, by rw [hval, hbest], hj, ?_⟩
    have hbs : best.score =
        -(getBestAIMove (b.set j (some p)) p.other p).score := by
      rw [hbest]
    omega

theorem C3_amended_winning_score_witness :
    (getBestAIMove cexBoard Mark.X Mark.O).score = 1 := by
  have h := C3_amended_winning_score cexBoard Mark.X (by decide) (by decide)
    ⟨3, by decide, (3, 4, 5), by decide⟩
  exact h.1

theorem emptyIdxs_pairwise (b : Board) :
    (emptyIdxs b).Pairwise (· < ·) :=
  List.Pairwise.sublist (List.filter_sublist _) (List.pairwise_lt_range _)

/-- C4.  On an ongoing board the search returns the candidate with the
strictly greatest negated recursive score; candidates are generated in
ascending cell order and ties keep the first, so the returned cell is
the lowest-index maximiser. -/
theorem C4_first_strict_maximum (b : Board) (p q : Mark)
    (hw : calculateWinner b = none) :
    ∃ i, (getBestAIMove b p q).idx = some i ∧ i ∈ emptyIdxs b ∧
      (getBestAIMove b p q).score =
        -(getBestAIMove (b.set i (some p)) q p).score ∧
      (∀ j ∈ emptyIdxs b,
        -(getBestAIMove (b.set j (some p)) q p).score ≤
          -(getBestAIMove (b.set i (some p)) q p).score) ∧
      (∀ j ∈ emptyIdxs b,
        -(getBestAIMove (b.set j (some p)) q p).score =
          -(getBestAIMove (b.set i (some p)) q p).score → i ≤ j) := by
  have hne : movesOf b p q ≠ [] := fun hmv =>
    emptyIdxs_ne_nil_of_ongoing hw (by simpa [movesOf] using hmv)
  cases hr : reduceBest (movesOf b p q) with
  | none => exact absurd (reduceBest_eq_none_iff.mp hr) hne
  | some best =>
    have hval : getBestAIMove b p q = best := by
      rw [getBestAIMove_nonterminal _ _ hw, hr]
    have hub := reduceBest_ub hr
    rcases reduceBest_first hr with ⟨ms₁, ms₂, hsplit, hlt⟩
    have hmap : movesOf b p q =
        (emptyIdxs b).map (fun k =>
          MoveResult.mk (some k)
            (-(getBestAIMove (b.set k (some p)) q p).score)) := rfl
    rw [hmap] at hsplit
    rcases List.map_eq_append_iff.mp hsplit with ⟨e₁, rest, hes, hm1, hm2⟩
    rcases List.map_eq_cons_iff.mp hm2 with ⟨i, e₂, hrest, hfi, hm3⟩
    have hie : i ∈ emptyIdxs b := by
      rw [hes, hrest]
      exact List.mem_append_right _ (List.mem_cons_self _ _)
    have hbesti : best = MoveResult.mk (some i)
        (-(getBestAIMove (b.set i (some p)) q p).score) := hfi.symm
    refine ⟨i, by rw [hval, hbesti], hie, by rw [hval, hbesti], ?_, ?_⟩
    · intro j hj
      have hjm := hub _ (mem_movesOf.mpr ⟨j, hj, rfl⟩)
      simp only at hjm
      rw [hbesti] at hjm
      simpa using hjm
    · intro j hj heq
      have hpw : (emptyIdxs b).Pairwise (· < ·) := emptyIdxs_pairwise b
      rw [hes, hrest] at hpw hj
      rcases List.mem_append.mp hj with hj1 | hj2
      · exfalso
        have hfj : (MoveResult.mk (some j)
            (-(getBestAIMove (b.set j (some p)) q p).score)) ∈ ms₁ := by
          rw [← hm1]
          exact List.mem_map_of_mem _ hj1
        have := hlt _ hfj
        simp only at this
        rw [hbesti] at this
        simp only at this
        omega
      · rcases List.mem_cons.mp hj2 with rfl | hj3
        · exact le_refl _
        · rcases List.pairwise_append.mp hpw with ⟨_, hpw2, _⟩
          exact le_of_lt ((List.pairwise_cons.mp hpw2).1 j hj3)

/-- An ongoing board: X at 0, 2, 4 and O at 1, 3, 5, cells 6-8 free. -/
def ongoingBoard : Board :=
  [some Mark.X, some Mark.O, some Mark.X,
   some Mark.O, some Mark.X, some Mark.O, none, none, none]

theorem C4_first_strict_maximum_witness :
    ∃ i, (getBestAIMove ongoingBoard Mark.X Mark.O).idx = some i ∧
      i ∈ emptyIdxs ongoingBoard := by
  rcases C4_first_strict_maximum ongoingBoard Mark.X Mark.O (by decide)
    with ⟨i, h1, h2, _⟩
  exact ⟨i, h1, h2⟩

/-- The two entries of `GAME_MODES`: `'Single Player (vs AI)'` and
`'Two Player (Local)'`. -/
inductive GameMode where
  | singlePlayer : GameMode
  | twoPlayer : GameMode
deriving DecidableEq, Repr

/-- One history entry `{board, xIsNext}`. -/
structure HistoryEntry where
  board : Board
  xIsNext : Bool
deriving DecidableEq, Repr

/-- The `App` component state relevant to the game: mode, history,
`stepNumber` (the current step pointer) and the `aiThinking` guard
flag. -/
structure Session where
  mode : GameMode
  history : List HistoryEntry
  stepNumber : Nat
  aiThinking : Bool
deriving DecidableEq, Repr

/-- `const current = history[stepNumber]` (in-range under the session
invariant; the JS out-of-range read would be `undefined`). -/
def currentEntry (s : Session) : HistoryEntry :=
  s.history.getD s.stepNumber ⟨[], true⟩

/-- `handleSquareClick(idx, isAI)`: refuses the click if the game is won
or drawn, the target cell is filled, or (in single-player mode) the AI
is thinking and the click is not the AI's own; also refuses non-AI
clicks for O in single-player mode.  Otherwise writes the mover's mark
into a copy of the current board, truncates the history after the
current step, appends the new entry and points `stepNumber` at it. -/
def handleSquareClick (s : Session) (idx : Nat) (isAI : Bool) : Session :=
  let current := currentEntry s
  let winner := calculateWinner current.board
  if winner.isSome = true ∨ (getCell current.board idx).isSome = true ∨
      (s.mode = GameMode.singlePlayer ∧ s.aiThinking = true ∧ isAI = false) then
    s
  else if isAI = false ∧ s.mode = GameMode.singlePlayer ∧
      current.xIsNext = false then
    s
  else
    let board := writeCell current.board idx
      (some (if current.xIsNext then Mark.X else Mark.O))
    let nextHistory := s.history.take (s.stepNumber + 1) ++
      [⟨board, !current.xIsNext⟩]
    { s with history := nextHistory, stepNumber := nextHistory.length - 1 }

/-- `jumpTo(step)`: moves the step pointer only. -/
def jumpTo (s : Session) (step : Nat) : Session :=
  { s with stepNumber := step }

/-- `handleRestart()`: fresh one-entry history, step 0, AI flag
cleared. -/
def handleRestart (s : Session) : Session :=
  { s with history := [⟨getEmptyBoard, true⟩], stepNumber := 0,
           aiThinking := false }

/-- `switchMode(newMode)`: `setMode(newMode)` followed by
`handleRestart()`. -/
def switchMode (s : Session) (m : GameMode) : Session :=
  handleRestart { s with mode := m }

/-- `newSession(mode)` as the specification describes it: a fresh
session in the given mode. -/
def newSession (m : GameMode) : Session :=
  { mode := m, history := [⟨getEmptyBoard, true⟩], stepNumber := 0,
    aiThinking := false }

/-- C9.  `switchMode` performs exactly `newSession(mode)`: whatever the
prior session was, the result is the given mode with a single fresh
history entry, step 0 and the AI flag cleared — nothing carries over. -/
theorem C9_switchMode_is_newSession (s : Session) (m : GameMode) :
    switchMode s m = newSession m := rfl

/-- C6.  An accepted move truncates the history to the first
`stepNumber + 1` entries, appends one entry whose board is the current
(step `stepNumber`) board with the mover's mark written at the chosen
cell, and advances `stepNumber` to the new last index; mode and the AI
flag are untouched. -/
theorem C6_accepted_move_truncates_and_appends
    (s : Session) (idx : Nat) (isAI : Bool)
    (hstep : s.stepNumber < s.history.length)
    (hw : calculateWinner (currentEntry s).board = none)
    (hc : getCell (currentEntry s).board idx = none)
    (hg1 : ¬(s.mode = GameMode.singlePlayer ∧ s.aiThinking = true ∧
      isAI = false))
    (hg2 : ¬(isAI = false ∧ s.mode = GameMode.singlePlayer ∧
      (currentEntry s).xIsNext = false)) :
    (handleSquareClick s idx isAI).history =
      s.history.take (s.stepNumber + 1) ++
        [⟨writeCell (currentEntry s).board idx
            (some (if (currentEntry s).xIsNext then Mark.X else Mark.O)),
          !(currentEntry s).xIsNext⟩] ∧
    (handleSquareClick s idx isAI).stepNumber = s.stepNumber + 1 ∧
    (handleSquareClick s idx isAI).mode = s.mode ∧
    (handleSquareClick s idx isAI).aiThinking = s.aiThinking := by
  have hcond1 : ¬((calculateWinner (currentEntry s).board).isSome = true ∨
      (getCell (currentEntry s).board idx).isSome = true ∨
      (s.mode = GameMode.singlePlayer ∧ s.aiThinking = true ∧
        isAI = false)) := by
    intro h
    rcases h with h | h | h
    · rw [hw] at h; cases h
    · rw [hc] at h; cases h
    · exact hg1 h
  unfold handleSquareClick
  rw [if_neg hcond1, if_neg hg2]
  refine ⟨rfl, ?_, rfl, rfl⟩
  have hlen : (s.history.take (s.stepNumber + 1)).length = s.stepNumber + 1 := by
    rw [List.length_take]
    omega
  simp [hlen]

/-- C7.  `handleSquareClick` is a silent no-op whenever the outcome is
terminal, the cell is occupied, a non-AI click arrives for O in
single-player mode, or a non-AI click arrives while an AI move is
pending.  The last guard reads the mode as well, so the theorem carries
the app invariant that the AI flag is only ever raised in single-player
mode. -/
theorem C7_rejected_click_is_noop (s : Session) (idx : Nat) (isAI : Bool)
    (hinv : s.aiThinking = true → s.mode = GameMode.singlePlayer)
    (h : (calculateWinner (currentEntry s).board).isSome = true ∨
      (getCell (currentEntry s).board idx).isSome = true ∨
      (isAI = false ∧ s.mode = GameMode.singlePlayer ∧
        (currentEntry s).xIsNext = false) ∨
      (isAI = false ∧ s.aiThinking = true)) :
    handleSquareClick s idx isAI = s := by
  unfold handleSquareClick
  by_cases h1 : (calculateWinner (currentEntry s).board).isSome = true ∨
      (getCell (currentEntry s).board idx).isSome = true ∨
      (s.mode = GameMode.singlePlayer ∧ s.aiThinking = true ∧ isAI = false)
  · rw [if_pos h1]
  · rw [if_neg h1]
    rcases h with h | h | h | h
    · exact absurd (Or.inl h) h1
    · exact absurd (Or.inr (Or.inl h)) h1
    · rw [if_pos h]
    · exact absurd (Or.inr (Or.inr ⟨hinv h.2, h.2, h.1⟩)) h1

/-- Sessions reachable from a fresh session through the four documented
operations (`jumpTo` only with an in-range step). -/
inductive Reachable : Session → Prop where
  | init (m : GameMode) : Reachable (newSession m)
  | click {s : Session} (idx : Nat) (isAI : Bool) :
      Reachable s → Reachable (handleSquareClick s idx isAI)
  | restart {s : Session} : Reachable s → Reachable (handleRestart s)
  | switch {s : Session} (m : GameMode) :
      Reachable s → Reachable (switchMode s m)
  | jump {s : Session} (step : Nat) :
      step < s.history.length → Reachable s → Reachable (jumpTo s step)

theorem handleSquareClick_preserves_step {s : Session} (idx : Nat)
    (isAI : Bool) (h : s.stepNumber < s.history.length) :
    (handleSquareClick s idx isAI).stepNumber <
      (handleSquareClick s idx isAI).history.length := by
  unfold handleSquareClick
  by_cases h1 : (calculateWinner (currentEntry s).board).isSome = true ∨
      (getCell (currentEntry s).board idx).isSome = true ∨
      (s.mode = GameMode.singlePlayer ∧ s.aiThinking = true ∧ isAI = false)
  · rw [if_pos h1]; exact h
  · rw [if_neg h1]
    by_cases h2 : isAI = false ∧ s.mode = GameMode.singlePlayer ∧
        (currentEntry s).xIsNext = false
    · rw [if_pos h2]; exact h
    · rw [if_neg h2]
      simp only [List.length_append, List.length_cons, List.length_nil]
      omega

/-- C8.  In every session reachable from a fresh session via the four
operations, `stepNumber` stays strictly below the history length. -/
theorem C8_step_invariant (s : Session) (h : Reachable s) :
    s.stepNumber < s.history.length := by
  induction h with
  | init m => exact Nat.zero_lt_one
  | click idx isAI _ ih => exact handleSquareClick_preserves_step idx _ ih
  | restart _ ih => exact Nat.zero_lt_one
  | switch m _ ih => exact Nat.zero_lt_one
  | jump step hstep _ ih => exact hstep

theorem C8_step_invariant_witness :
    (newSession GameMode.singlePlayer).stepNumber <
      (newSession GameMode.singlePlayer).history.length :=
  C8_step_invariant (newSession GameMode.singlePlayer)
    (Reachable.init GameMode.singlePlayer)

/-- A two-entry history with the pointer jumped back to step 0. -/
def branchSession : Session :=
  { mode := GameMode.twoPlayer,
    history := [⟨getEmptyBoard, true⟩,
                ⟨writeCell getEmptyBoard 0 (some Mark.X), false⟩],
    stepNumber := 0, aiThinking := false }

theorem C6_accepted_move_truncates_and_appends_witness :
    (handleSquareClick branchSession 4 false).history =
      branchSession.history.take (branchSession.stepNumber + 1) ++
        [⟨writeCell (currentEntry branchSession).board 4
            (some (if (currentEntry branchSession).xIsNext then Mark.X
                   else Mark.O)),
          !(currentEntry branchSession).xIsNext⟩] ∧
    (handleSquareClick branchSession 4 false).stepNumber =
      branchSession.stepNumber + 1 ∧
    (handleSquareClick branchSession 4 false).mode = branchSession.mode ∧
    (handleSquareClick branchSession 4 false).aiThinking =
      branchSession.aiThinking :=
  C6_accepted_move_truncates_and_appends branchSession 4 false
    (by decide) (by decide) (by decide) (by decide) (by decide)

/-- A session whose current board is already won by X. -/
def wonSession : Session :=
  { mode := GameMode.twoPlayer, history := [⟨wonBoard, false⟩],
    stepNumber := 0, aiThinking := false }

theorem C7_rejected_click_is_noop_witness :
    handleSquareClick wonSession 5 false = wonSession :=
  C7_rejected_click_is_noop wonSession 5 false (by decide)
    (Or.inl (by decide))

/-- A fresh two-player session. -/
def initialTwoPlayer : Session :=
  { mode := GameMode.twoPlayer, history := [⟨getEmptyBoard, true⟩],
    stepNumber := 0, aiThinking := false }

/-- C10.  `handleSquareClick` performs no range check on the cell index:
clicking cell 9 on a fresh two-player board is accepted and appends an
entry whose board is the 9-cell board extended with X at index 9 — a
10-cell board, so the 9-cell shape is not preserved. -/
theorem C10_no_range_validation :
    (handleSquareClick initialTwoPlayer 9 false).history =
      [⟨getEmptyBoard, true⟩, ⟨getEmptyBoard ++ [some Mark.X], false⟩] ∧
    (handleSquareClick initialTwoPlayer 9 false).stepNumber = 1 ∧
    getEmptyBoard.length = 9 ∧
    (getEmptyBoard ++ [some Mark.X]).length = 10 := by decide

end TicTacToe
